import Mathlib

/-!
Verification of the quantum-circuit-debugger backend core.

This file gives a shallow embedding, in Lean 4, of the algorithmic core of the
backend: the Hamiltonian builders and free-text parser
(`backend/algorithms/hamiltonian.py`), the MaxCut adjacency builder
(`backend/algorithms/vqe.py`), the QAOA circuit builder
(`backend/algorithms/qaoa.py`), the request validation layer
(`backend/models.py`), and the continuous-time quantum-walk engine
(`backend/algorithms/quantum_walk.py`).

Python floats are modelled by `ℚ` for the purely structural builders (whose
behaviour depends only on exact zero tests and sign tests of input entries)
and by `ℝ`/`ℂ` for the analytic quantum-walk propagator.  An `n × n` matrix
(a Python list of `n` lists of `n` floats) is modelled as a total function
`ℕ → ℕ → ℚ`; the embedded code only ever reads indices below `n`, exactly as
the Python code only indexes within bounds.

Theorems following the definitions settle the frozen claims about this code.
-/

open scoped Matrix Nat

namespace QCDebug

/-- Pauli symbols making up one position of a basis string.  The backend
represents a term of a weighted operator as a string over the alphabet
I, X, Y, Z together with a real coefficient. -/
inductive Pauli where
  | I
  | X
  | Y
  | Z
deriving DecidableEq, Repr

/-- A weighted operator is an ordered list of (basis string, coefficient)
pairs: the embedding of qiskit `SparsePauliOp(pauli_list, coeffs)` as built
by the backend. -/
abbrev WeightedOp := List (List Pauli × ℚ)

/-- The ordered list of index pairs `(i, j)` with `i < j < n` visited by the
ubiquitous loop nest `for i in range(n): for j in range(i + 1, n)`. -/
def pairList (n : ℕ) : List (ℕ × ℕ) :=
  (List.range n).flatMap fun i =>
    ((List.range n).filter fun j => i < j).map fun j => (i, j)

/-- Basis string for a two-body Z⊗Z term on qubits `i < j`, translated from
`build_ising_hamiltonian` (hamiltonian.py lines 97-99): start from
`["I"] * num_qubits`, set position `num_qubits - 1 - i` and then position
`num_qubits - 1 - j` to `"Z"` (little-endian placement). -/
def zzString (n i j : ℕ) : List Pauli :=
  ((List.replicate n Pauli.I).set (n - 1 - i) Pauli.Z).set (n - 1 - j) Pauli.Z

/-- Basis string for a single-qubit Z term on qubit `i`, translated from
`build_ising_hamiltonian` (hamiltonian.py lines 108-109). -/
def zString (n i : ℕ) : List Pauli :=
  (List.replicate n Pauli.I).set (n - 1 - i) Pauli.Z

/-- The two-body ZZ terms of `build_ising_hamiltonian` (hamiltonian.py
lines 92-101): the loop nest `for i in range(n): for j in range(i+1, n)`
appends one ZZ term with coefficient `J[i][j]` for every pair `i < j` with
`J[i][j] != 0`. -/
def isingZZTerms (n : ℕ) (J : ℕ → ℕ → ℚ) : WeightedOp :=
  (pairList n).flatMap fun p =>
    if J p.1 p.2 ≠ 0 then [(zzString n p.1 p.2, J p.1 p.2)] else []

/-- The single-qubit Z terms of the Ising builder (hamiltonian.py lines
104-111), empty when `linear_terms` is not supplied. -/
def isingZTerms (n : ℕ) (lin : Option (ℕ → ℚ)) : WeightedOp :=
  match lin with
  | none => []
  | some h => (List.range n).flatMap fun i =>
      if h i ≠ 0 then [(zString n i, h i)] else []

/-- Embedding of `build_ising_hamiltonian(num_qubits, interaction_matrix,
linear_terms)` (hamiltonian.py lines 74-116): ZZ terms first, then Z terms,
with an empty term list replaced by the single all-identity term with
coefficient `0.0`. -/
def build_ising_hamiltonian (n : ℕ) (J : ℕ → ℕ → ℚ)
    (lin : Option (ℕ → ℚ)) : WeightedOp :=
  if isingZZTerms n J ++ isingZTerms n lin = [] then
    [(List.replicate n Pauli.I, 0)]
  else
    isingZZTerms n J ++ isingZTerms n lin

/-- The number of qubit pairs `i < j < n` whose coupling entry is nonzero:
the pair count appearing in the term-count bound of the specification. -/
def nonzeroPairCount (n : ℕ) (J : ℕ → ℕ → ℚ) : ℕ :=
  ((pairList n).filter fun p => J p.1 p.2 ≠ 0).length

/-- The number of qubits `i < n` with a nonzero linear-field entry (0 when no
linear terms are supplied). -/
def nonzeroFieldCount (n : ℕ) (lin : Option (ℕ → ℚ)) : ℕ :=
  match lin with
  | none => 0
  | some h => ((List.range n).filter fun i => h i ≠ 0).length

/-- Point update of a two-index function, the embedding of the Python
assignment `J[a][b] = v` on a list-of-lists matrix. -/
def update2 (J : ℕ → ℕ → ℚ) (a b : ℕ) (v : ℚ) : ℕ → ℕ → ℚ :=
  fun i j => if i = a ∧ j = b then v else J i j

/-- Loop body of `mvc_hamiltonian` (hamiltonian.py lines 138-143): when
`adjacency_matrix[i][j] != 0` for the visited pair `(i, j)`, perform
`J[i][j] += 0.75; h[i] += 0.75; h[j] += 0.75`. -/
def mvcStep (A : ℕ → ℕ → ℚ) (s : (ℕ → ℕ → ℚ) × (ℕ → ℚ)) (p : ℕ × ℕ) :
    (ℕ → ℕ → ℚ) × (ℕ → ℚ) :=
  if A p.1 p.2 ≠ 0 then
    (update2 s.1 p.1 p.2 (s.1 p.1 p.2 + 3 / 4),
      let h1 := Function.update s.2 p.1 (s.2 p.1 + 3 / 4)
      Function.update h1 p.2 (h1 p.2 + 3 / 4))
  else s

/-- Embedding of `mvc_hamiltonian(adjacency_matrix, num_qubits)`
(hamiltonian.py lines 124-148): starting from all-zero `J` and `h`, fold
`mvcStep` over the pairs `i < j < n`, then perform the final loop
`h[i] -= 1.0` for every `i < n`. -/
def mvc_hamiltonian (A : ℕ → ℕ → ℚ) (n : ℕ) : (ℕ → ℕ → ℚ) × (ℕ → ℚ) :=
  let s := (pairList n).foldl (mvcStep A) (fun _ _ => 0, fun _ => 0)
  (s.1, fun i => if i < n then s.2 i - 1 else s.2 i)

/-- Loop body of `weighted_maxcut_hamiltonian` (hamiltonian.py lines
161-164): when `adjacency_matrix[i][j] != 0` for the visited pair `(i, j)`,
perform `J[i][j] = -adjacency_matrix[i][j]`. -/
def wmcStep (A : ℕ → ℕ → ℚ) (s : ℕ → ℕ → ℚ) (p : ℕ × ℕ) : ℕ → ℕ → ℚ :=
  if A p.1 p.2 ≠ 0 then update2 s p.1 p.2 (-A p.1 p.2) else s

/-- Embedding of `weighted_maxcut_hamiltonian(adjacency_matrix, num_qubits)`
(hamiltonian.py lines 151-165): starting from an all-zero `J`, fold `wmcStep`
over the pairs `i < j < n`; the linear terms are returned as the all-zero
vector `[0.0] * num_qubits`. -/
def weighted_maxcut_hamiltonian (A : ℕ → ℕ → ℚ) (n : ℕ) :
    (ℕ → ℕ → ℚ) × (ℕ → ℚ) :=
  ((pairList n).foldl (wmcStep A) (fun _ _ => 0), fun _ => 0)

/-- The matrix actually used by `maxcut_hamiltonian_from_adjacency`
(vqe.py lines 70-75): `1 - A` when `invert` is true, else a copy of `A`, in
both cases with the diagonal zeroed by `np.fill_diagonal(H, 0)`. -/
def maxcutMatrix (A : ℕ → ℕ → ℚ) (invert : Bool) : ℕ → ℕ → ℚ :=
  fun i j => if i = j then 0 else if invert then 1 - A i j else A i j

/-- Basis string built by `maxcut_hamiltonian_from_adjacency`
(vqe.py lines 84-86): `base = list("I" * n); base[i] = "Z"; base[j] = "Z"` —
the Z symbols are written at string positions `i` and `j` directly. -/
def maxcutBase (n i j : ℕ) : List Pauli :=
  ((List.replicate n Pauli.I).set i Pauli.Z).set j Pauli.Z

/-- Embedding of `maxcut_hamiltonian_from_adjacency(adjacency_matrix,
invert)` (vqe.py lines 52-90): for every pair `i < j` with `H[i, j] > 0`
(where `H` is the possibly inverted, diagonal-zeroed matrix), append the
basis `maxcutBase` and the scale `H[i, j]`; the two lists are returned
side by side. -/
def maxcut_hamiltonian_from_adjacency (A : ℕ → ℕ → ℚ) (n : ℕ)
    (invert : Bool) : List (List Pauli) × List ℚ :=
  let H := maxcutMatrix A invert
  let terms := (pairList n).filterMap fun p =>
    if 0 < H p.1 p.2 then some (maxcutBase n p.1 p.2, H p.1 p.2) else none
  (terms.map Prod.fst, terms.map Prod.snd)

/-- Quantum gates appearing in the circuits built by the backend core:
Hadamard, controlled-NOT, Z rotation and X rotation (angles in `ℚ`). -/
inductive Gate where
  | h (q : ℕ)
  | cx (c t : ℕ)
  | rz (theta : ℚ) (q : ℕ)
  | rx (theta : ℚ) (q : ℕ)
deriving DecidableEq, Repr

/-- Initial uniform-superposition layer of `build_qaoa_circuit`
(qaoa.py lines 51-52): one Hadamard per qubit, in qubit order. -/
def hadamardLayer (n : ℕ) : List Gate :=
  (List.range n).map Gate.h

/-- ZZ-interaction part of one QAOA cost layer (qaoa.py lines 59-65): for
every pair `i < j` with `J[i][j] != 0`, in row-major order, the three-gate
sequence `cx(i, j); rz(2 * gamma * J[i][j], j); cx(i, j)`. -/
def zzGates (n : ℕ) (J : ℕ → ℕ → ℚ) (gamma : ℚ) : List Gate :=
  (List.range n).flatMap fun i =>
    (List.range n).flatMap fun j =>
      if i < j ∧ J i j ≠ 0 then
        [Gate.cx i j, Gate.rz (2 * gamma * J i j) j, Gate.cx i j]
      else []

/-- Single-qubit Z-field part of one QAOA cost layer (qaoa.py lines 68-72):
when `linear_terms` is supplied, `rz(2 * gamma * h[i], i)` for every `i` with
`h[i] != 0`. -/
def fieldGates (n : ℕ) (lin : Option (ℕ → ℚ)) (gamma : ℚ) : List Gate :=
  match lin with
  | none => []
  | some h => (List.range n).flatMap fun i =>
      if h i ≠ 0 then [Gate.rz (2 * gamma * h i) i] else []

/-- One full QAOA cost sub-layer: ZZ interactions followed by single-qubit
Z fields (qaoa.py lines 58-72). -/
def costLayerGates (n : ℕ) (J : ℕ → ℕ → ℚ) (lin : Option (ℕ → ℚ))
    (gamma : ℚ) : List Gate :=
  zzGates n J gamma ++ fieldGates n lin gamma

/-- QAOA mixer sub-layer (qaoa.py lines 75-76): `rx(2 * beta, q)` on every
qubit. -/
def mixerGates (n : ℕ) (beta : ℚ) : List Gate :=
  (List.range n).map fun q => Gate.rx (2 * beta) q

/-- Embedding of `build_qaoa_circuit(num_qubits, interaction_matrix, gammas,
betas, linear_terms)` (qaoa.py lines 28-78): Hadamards on all qubits, then
for `layer in range(p)` with `p = len(gammas)` the cost sub-layer with angle
`gammas[layer]` followed by the mixer sub-layer with angle `betas[layer]`. -/
def build_qaoa_circuit (n : ℕ) (J : ℕ → ℕ → ℚ) (gammas betas : List ℚ)
    (lin : Option (ℕ → ℚ)) : List Gate :=
  hadamardLayer n ++
    (List.range gammas.length).flatMap fun layer =>
      costLayerGates n J lin (gammas.getD layer 0) ++
        mixerGates n (betas.getD layer 0)

/-- Modelled from the spec (§4.2 `buildQAOAAnsatz`), for comparison with the
source-level `build_qaoa_circuit`: one uniform-superposition layer; then, for
each `(γ, β)` layer in order, a cost sub-layer applying, for every pair
`i < j` with `J[i][j] ≠ 0` in row-major insertion order, the sandwich
`CNOT(i,j); RZ(2·γ·J[i][j]) on j; CNOT(i,j)`, followed by `RZ(2·γ·h[i])` on
every `i` with `h[i] ≠ 0`; then a mixer sub-layer applying `RX(2·β)` to
every qubit. -/
def qaoaSpecCircuit (n : ℕ) (J : ℕ → ℕ → ℚ) (lin : Option (ℕ → ℚ))
    (layers : List (ℚ × ℚ)) : List Gate :=
  (List.range n).map Gate.h ++
    layers.flatMap fun gb =>
      ((pairList n).flatMap fun p =>
        if J p.1 p.2 ≠ 0 then
          [Gate.cx p.1 p.2, Gate.rz (2 * gb.1 * J p.1 p.2) p.2,
            Gate.cx p.1 p.2]
        else []) ++
      (match lin with
        | none => []
        | some h => (List.range n).flatMap fun i =>
            if h i ≠ 0 then [Gate.rz (2 * gb.1 * h i) i] else []) ++
      (List.range n).map fun q => Gate.rx (2 * gb.2) q

/-- Action of a single phase-type gate on a computational basis state,
recorded as a pair of the basis index and the accumulated phase angle (the
state is `exp(i·α)·|x⟩`).  `cx c t` maps `|x⟩` to `|x XOR (bit c of x) · 2^t⟩`;
`rz θ q` multiplies by `exp(+i·θ/2)` when bit `q` is set and `exp(−i·θ/2)`
otherwise (the qiskit convention `RZ(θ) = diag(exp(−iθ/2), exp(iθ/2))`).
Hadamard and `rx` do not map basis states to basis states, so the action is
undefined (`none`) for them; QAOA cost sub-layers contain only `cx`/`rz`. -/
def applyPhaseGate (st : ℕ × ℚ) : Gate → Option (ℕ × ℚ)
  | Gate.cx c t =>
      some (if st.1.testBit c then st.1 ^^^ 2 ^ t else st.1, st.2)
  | Gate.rz theta q =>
      some (st.1, st.2 + if st.1.testBit q then theta / 2 else -(theta / 2))
  | _ => none

/-- Action of a list of phase-type gates on a basis state, applied left to
right. -/
def applyPhaseGates (gs : List Gate) (st : ℕ × ℚ) : Option (ℕ × ℚ) :=
  gs.foldlM applyPhaseGate st

/-- Eigenvalue sign of a basis string with a `Z` at string position `k`
acting on the computational basis state with bit pattern `x`: string
position `k` addresses qubit `len − 1 − k`, and `Z` contributes `−1`
exactly when that qubit's bit is set.  This is the diagonal-operator
semantics the backend itself uses in its `expectation` routines
(qaoa.py lines 258-266: spin `+1` for bit `0`, `−1` for bit `1`). -/
def termSign (t : List Pauli) (x : ℕ) : ℚ :=
  (List.range t.length).foldl
    (fun acc k =>
      if t.getD k Pauli.I = Pauli.Z ∧ x.testBit (t.length - 1 - k) then
        -acc
      else acc)
    1

/-- Energy of a diagonal (I/Z) weighted operator on the computational basis
state with bit pattern `x`: the coefficient-weighted sum of term signs. -/
def opEval (op : WeightedOp) (x : ℕ) : ℚ :=
  (op.map fun tc => tc.2 * termSign tc.1 x).sum

/-- Python `s.split(that_char)`: split at every occurrence of the separator,
keeping empty chunks; splitting the empty string yields one empty chunk. -/
def splitOnChar (sep : Char) : List Char → List (List Char)
  | [] => [[]]
  | c :: rest =>
    if c = sep then [] :: splitOnChar sep rest
    else
      match splitOnChar sep rest with
      | [] => [[c]]
      | g :: gs => (c :: g) :: gs

/-- Python `s.strip()`: drop whitespace from both ends. -/
def stripChars (l : List Char) : List Char :=
  ((l.dropWhile Char.isWhitespace).reverse.dropWhile Char.isWhitespace).reverse

/-- Python `s.split()` (no argument): split on whitespace runs, dropping
empty chunks. -/
def splitWhitespace (l : List Char) : List (List Char) :=
  (splitOnChar ' ' (l.map fun c => if c.isWhitespace then ' ' else c)).filter
    fun w => w ≠ []

/-- Uppercased Pauli letter of a regex match (the parser's
`match.group(1).upper()`); only X, Y, Z can occur. -/
def charToPauli (c : Char) : Pauli :=
  if c = 'X' then Pauli.X else if c = 'Y' then Pauli.Y
  else if c = 'Z' then Pauli.Z else Pauli.I

/-- Value of a digit run, most significant digit first (Python `int(...)`
of the regex digit group). -/
def digitsToNat (ds : List Char) : ℕ :=
  ds.foldl (fun a c => 10 * a + (c.toNat - 48)) 0

/-- Embedding of `re.finditer(r"([XYZ])(\d+)", pauli_part, re.IGNORECASE)`
(hamiltonian.py line 51): scan left to right; at a Pauli letter (either
case) immediately followed by at least one digit, consume the letter and the
maximal digit run and emit the (uppercased letter, index) match, resuming
after it; otherwise advance one character. -/
def scanMatches : List Char → List (Pauli × ℕ)
  | [] => []
  | c :: rest =>
    if (c.toUpper = 'X' ∨ c.toUpper = 'Y' ∨ c.toUpper = 'Z') ∧
        (rest.headD ' ').isDigit ∧ rest ≠ [] then
      (charToPauli c.toUpper, digitsToNat (rest.takeWhile Char.isDigit)) ::
        scanMatches (rest.dropWhile Char.isDigit)
    else
      scanMatches rest
termination_by l => l.length
decreasing_by
  · simp only [List.length_cons]
    exact Nat.lt_succ_of_le (List.dropWhile_sublist _).length_le
  · simp

/-- One regex-match application of the parser (hamiltonian.py lines 52-55):
`idx = int(match.group(2)); if idx < num_qubits:
op_list[num_qubits - 1 - idx] = gate` — an out-of-range index leaves the
term untouched. -/
def applyFactor (n : ℕ) (ops : List Pauli) (m : Pauli × ℕ) : List Pauli :=
  if m.2 < n then ops.set (n - 1 - m.2) m.1 else ops

/-- Coefficient/Pauli-part split of one additive term of the expression
(hamiltonian.py lines 33-49), parameterised by a model `pyFloat` of the
Python `float(...)` conversion (`none` models a raised `ValueError`, which
the source catches and ignores, keeping coefficient `1.0` and the whole term
as the Pauli part). -/
def splitCoeff (pyFloat : List Char → Option ℚ) (term : List Char) :
    ℚ × List Char :=
  if term.contains '*' then
    let parts := splitOnChar '*' term
    match pyFloat (stripChars (parts.headD [])) with
    | some c => (c, stripChars (parts.getD 1 []))
    | none => (1, term)
  else
    match splitWhitespace term with
    | [] => (1, term)
    | p0 :: rest =>
      match pyFloat p0 with
      | some c => (c, (rest.intersperse [' ']).flatten)
      | none => (1, term)

/-- Embedding of one term's translation to a basis string and coefficient
(hamiltonian.py lines 29-57). -/
def parseTerm (pyFloat : List Char → Option ℚ) (n : ℕ) (term : List Char) :
    List Pauli × ℚ :=
  let cp := splitCoeff pyFloat term
  ((scanMatches cp.2).foldl (applyFactor n) (List.replicate n Pauli.I), cp.1)

/-- Embedding of `parse_hamiltonian(hamiltonian_str, num_qubits)`
(hamiltonian.py lines 23-63): split the input on `+`, strip each term, skip
empty terms, translate the rest in order, and return the all-identity
zero-coefficient operator when nothing was collected.  The whole body is
wrapped in `try/except` returning that same zero operator, so the Python
function never raises; the embedding is accordingly a total function. -/
def parse_hamiltonian (pyFloat : List Char → Option ℚ) (s : List Char)
    (n : ℕ) : WeightedOp :=
  if ((((splitOnChar '+' s).map stripChars).filter fun t => t ≠ []).map
      (parseTerm pyFloat n)) = [] then
    [(List.replicate n Pauli.I, 0)]
  else
    (((splitOnChar '+' s).map stripChars).filter fun t => t ≠ []).map
      (parseTerm pyFloat n)

/-- Embedding of the pydantic field validation of `QAOARequest`
(models.py lines 230-253): `num_qubits ≥ 2`, `1 ≤ p_layers ≤ 10`,
`1 ≤ max_iter ≤ 1000`, `shots ≥ 1`.  The `interaction_matrix` and
`linear_terms` fields carry no constraint at all. -/
def qaoaRequestValid (num_qubits p_layers max_iter shots : ℤ) : Bool :=
  decide (2 ≤ num_qubits) && decide (1 ≤ p_layers) && decide (p_layers ≤ 10)
    && decide (1 ≤ max_iter) && decide (max_iter ≤ 1000) && decide (1 ≤ shots)

/-- The data of the first `Estimator` call made by `run_qaoa`
(qaoa.py lines 98-115): `cost_func` builds the QAOA circuit for the current
parameters and immediately runs the estimator on it with the Ising operator;
`run_qaoa` performs no validation of the interaction matrix (or anything
else) before `minimize` first invokes `cost_func` on the start vector. -/
def run_qaoa_firstOracleCall (n : ℕ) (J : ℕ → ℕ → ℚ)
    (lin : Option (ℕ → ℚ)) (gammas betas : List ℚ) :
    List Gate × WeightedOp :=
  (build_qaoa_circuit n J gammas betas lin, build_ising_hamiltonian n J lin)

/-- Embedding of the `/qaoa` endpoint path (main.py lines 303-351): pydantic
validates the scalar request fields, and on success `run_qaoa` is called,
whose first oracle call is unconditional.  `none` models request rejection
before any oracle call. -/
def qaoa_endpoint (n : ℕ) (J : ℕ → ℕ → ℚ) (lin : Option (ℕ → ℚ))
    (p_layers max_iter shots : ℤ) (gammas betas : List ℚ) :
    Option (List Gate × WeightedOp) :=
  if qaoaRequestValid n p_layers max_iter shots then
    some (run_qaoa_firstOracleCall n J lin gammas betas)
  else none

/-- Python dict write `d[k] = d.get(k, 0) + c` on an insertion-ordered
association list. -/
def dictAdd : List (ℕ × ℕ) → ℕ → ℕ → List (ℕ × ℕ)
  | [], k, c => [(k, c)]
  | (k', c') :: rest, k, c =>
    if k' = k then (k', c' + c) :: rest else (k', c') :: dictAdd rest k c

/-- Embedding of the padding filter of `run_quantum_walk`
(quantum_walk.py lines 149-154): measured outcomes are keyed here by their
basis index `int(state, 2)` (the bitstring label used by the source is a
bijective function of this index); outcomes with index `≥ num_vertices` are
dropped, the rest are accumulated into an insertion-ordered dict. -/
def filteredCounts (numVertices : ℕ) (counts : List (ℕ × ℕ)) :
    List (ℕ × ℕ) :=
  counts.foldl
    (fun d sc => if sc.1 < numVertices then dictAdd d sc.1 sc.2 else d) []

/-- Python `max(d, key=d.get)`: the first key attaining the maximal value,
in insertion order; `none` on an empty dict. -/
def maxByCount (d : List (ℕ × ℕ)) : Option ℕ :=
  (d.foldl
    (fun best kc =>
      match best with
      | none => some kc
      | some b => if b.2 < kc.2 then some kc else some b)
    none).map Prod.fst

/-- Binary rendering `format(idx, f"0<nq>b")` of a basis index, most
significant bit first. -/
def toBits (nq idx : ℕ) : List Bool :=
  (List.range nq).map fun k => idx.testBit (nq - 1 - k)

/-- Embedding of the most-likely-outcome postprocessing of
`run_quantum_walk` (quantum_walk.py lines 156-163):
`most_likely = max(filtered_counts, key=filtered_counts.get) if
filtered_counts else "0" * num_qubits`, returned together with
`most_likely_vertex = int(most_likely, 2)`. -/
def walkMostLikely (numQubits numVertices : ℕ) (counts : List (ℕ × ℕ)) :
    List Bool × ℕ :=
  match maxByCount (filteredCounts numVertices counts) with
  | some idx => (toBits numQubits idx, idx)
  | none => (List.replicate numQubits false, 0)

/-- Embedding of the qubit-count computation of `run_quantum_walk`
(quantum_walk.py line 105):
`max(1, int(math.ceil(math.log2(num_vertices)))) if num_vertices > 1 else 1`,
with `⌈log₂ V⌉ = Nat.clog 2 V`. -/
def numQubitsOf (V : ℕ) : ℕ :=
  if 1 < V then max 1 (Nat.clog 2 V) else 1

/-- Padded Hilbert-space dimension `2 ** num_qubits`
(quantum_walk.py line 106). -/
def walkDim (V : ℕ) : ℕ :=
  2 ^ numQubitsOf V

/-- The vertex count never exceeds the padded dimension, so the slice
`probs[:num_vertices]` is in range. -/
theorem le_walkDim (V : ℕ) : V ≤ walkDim V := by
  unfold walkDim numQubitsOf
  by_cases h : 1 < V
  · rw [if_pos h]
    have h1 : Nat.clog 2 V ≥ 1 := Nat.clog_pos one_lt_two h
    rw [max_eq_right h1]
    exact Nat.le_pow_clog one_lt_two V
  · rw [if_neg h]
    omega

/-- Embedding of the zero-padding `A_padded[:num_vertices, :num_vertices]=A`
(quantum_walk.py lines 109-110): entries with either index `≥ num_vertices`
are zero. -/
def A_padded (V : ℕ) (A : Matrix (Fin V) (Fin V) ℝ) :
    Matrix (Fin (walkDim V)) (Fin (walkDim V)) ℝ :=
  Matrix.of fun i j =>
    if h : i.1 < V ∧ j.1 < V then A ⟨i.1, h.1⟩ ⟨j.1, h.2⟩ else 0

/-- Embedding of the initial state `psi0[initial_vertex] = 1.0`
(quantum_walk.py lines 113-114). -/
def psi0 (V : ℕ) (v : ℕ) : Fin (walkDim V) → ℂ :=
  fun i => if i.1 = v then 1 else 0

/-- The matrix `-1j * A_padded * t` whose exponential the walk applies
(quantum_walk.py line 120). -/
def walkGenerator (V : ℕ) (A : Matrix (Fin V) (Fin V) ℝ) (t : ℝ) :
    Matrix (Fin (walkDim V)) (Fin (walkDim V)) ℂ :=
  (-(t : ℂ) * Complex.I) • (A_padded V A).map Complex.ofReal

/-- Embedding of the walk state `psi_t = expm(-1j * A_padded * t) @ psi0`
(quantum_walk.py lines 120-121). -/
noncomputable def walkState (V : ℕ) (A : Matrix (Fin V) (Fin V) ℝ) (v : ℕ)
    (t : ℝ) : Fin (walkDim V) → ℂ :=
  (NormedSpace.exp ℂ (walkGenerator V A t)).mulVec (psi0 V v)

/-- Embedding of the per-vertex probabilities
`probs = np.abs(psi_t) ** 2; vertex_probs = probs[:num_vertices]`
(quantum_walk.py lines 122-124). -/
noncomputable def vertexProbs (V : ℕ) (A : Matrix (Fin V) (Fin V) ℝ)
    (v : ℕ) (t : ℝ) : Fin V → ℝ :=
  fun i =>
    Complex.normSq (walkState V A v t ⟨i.1, lt_of_lt_of_le i.2 (le_walkDim V)⟩)

/-- The map `M ↦ (M ⬝ w) p` as a continuous linear functional on matrices,
used to push entry extraction through the exponential series. -/
noncomputable def mulVecEntryCLM (D : ℕ) (w : Fin D → ℂ) (p : Fin D) :
    Matrix (Fin D) (Fin D) ℂ →L[ℂ] ℂ where
  toFun := fun M => M.mulVec w p
  map_add' := fun M1 M2 => by
    show (M1 + M2).mulVec w p = M1.mulVec w p + M2.mulVec w p
    rw [Matrix.add_mulVec]
    rfl
  map_smul' := fun c M => by
    show (c • M).mulVec w p = c • M.mulVec w p
    rw [Matrix.smul_mulVec_assoc]
    rfl
  cont := by
    show Continuous fun M : Matrix (Fin D) (Fin D) ℂ => M.mulVec w p
    have he : (fun M : Matrix (Fin D) (Fin D) ℂ => M.mulVec w p) =
        fun M => ∑ j, M p j * w j :=
      funext fun M => rfl
    rw [he]
    exact continuous_finset_sum _ fun j _ =>
      (continuous_id.matrix_elem p j).mul continuous_const

/-- The 2-vertex (or, read as a larger matrix, padded) adjacency matrix with
the single unit-weight edge (0, 1): the concrete instance named by several
claims. -/
def adjSingleEdge : ℕ → ℕ → ℚ :=
  fun i j => if i = 0 ∧ j = 1 ∨ i = 1 ∧ j = 0 then 1 else 0

/-! ### Supporting lemmas -/

theorem mem_pairList {n a b : ℕ} : (a, b) ∈ pairList n ↔ a < b ∧ b < n := by
  simp only [pairList, List.mem_flatMap, List.mem_map, List.mem_filter,
    List.mem_range, decide_eq_true_eq, Prod.mk.injEq]
  constructor
  · rintro ⟨i, _, j, ⟨hjn, hij⟩, rfl, rfl⟩
    exact ⟨hij, hjn⟩
  · rintro ⟨hab, hbn⟩
    exact ⟨a, lt_trans hab hbn, b, ⟨hbn, hab⟩, rfl, rfl⟩

theorem pairList_lt {n : ℕ} : ∀ p ∈ pairList n, p.1 < p.2 := by
  rintro ⟨a, b⟩ hp
  exact (mem_pairList.1 hp).1

theorem pairList_nodup (n : ℕ) : (pairList n).Nodup := by
  unfold pairList
  rw [List.nodup_flatMap]
  refine ⟨fun i _ => ?_, ?_⟩
  · exact ((List.nodup_range n).filter _).map fun a b hab => by
      simpa using hab
  · refine List.Pairwise.imp ?_ (List.nodup_range n)
    intro i j hij
    intro x hx hy
    simp only [List.mem_map, List.mem_filter] at hx hy
    obtain ⟨a, _, rfl⟩ := hx
    obtain ⟨b, _, hba⟩ := hy
    exact hij (congrArg Prod.fst hba).symm

theorem flatMap_ite_singleton_length {α β : Type} (p : α → Prop)
    [DecidablePred p] (f : α → β) (l : List α) :
    (l.flatMap fun x => if p x then [f x] else []).length =
      (l.filter fun x => decide (p x)).length := by
  induction l with
  | nil => rfl
  | cons a l ih => by_cases h : p a <;> simp [h, ih, List.filter_cons]

theorem flatMap_ite_singleton_eq_nil {α β : Type} (p : α → Prop)
    [DecidablePred p] (f : α → β) (l : List α) (h : ∀ x ∈ l, ¬ p x) :
    (l.flatMap fun x => if p x then [f x] else []) = [] := by
  induction l with
  | nil => rfl
  | cons a l ih =>
    simp only [List.flatMap_cons, if_neg (h a (List.mem_cons_self a l)),
      List.nil_append]
    exact ih fun x hx => h x (List.mem_cons_of_mem a hx)

theorem mem_flatMap_ite_singleton {α β : Type} {p : α → Prop}
    [DecidablePred p] {f : α → β} {l : List α} {x : α} (hx : x ∈ l)
    (hp : p x) : f x ∈ l.flatMap fun y => if p y then [f y] else [] :=
  List.mem_flatMap.2 ⟨x, hx, by simp [hp]⟩

theorem update2_same (J : ℕ → ℕ → ℚ) (a b : ℕ) (v : ℚ) :
    update2 J a b v a b = v := by
  simp [update2]

theorem update2_other (J : ℕ → ℕ → ℚ) {a b c d : ℕ} (v : ℚ)
    (h : (c, d) ≠ (a, b)) : update2 J a b v c d = J c d := by
  unfold update2
  exact if_neg fun hc => h (by rw [hc.1, hc.2])

theorem mvcStep_foldl_fst (A : ℕ → ℕ → ℚ) (L : List (ℕ × ℕ))
    (hnd : L.Nodup) (s : (ℕ → ℕ → ℚ) × (ℕ → ℚ)) (a b : ℕ) :
    ((L.foldl (mvcStep A) s).1) a b =
      if (a, b) ∈ L ∧ A a b ≠ 0 then s.1 a b + 3 / 4 else s.1 a b := by
  induction L generalizing s with
  | nil => simp
  | cons q L ih =>
    have hq : q ∉ L := (List.nodup_cons.1 hnd).1
    have hL : L.Nodup := (List.nodup_cons.1 hnd).2
    simp only [List.foldl_cons]
    rw [ih hL]
    by_cases hqab : q = (a, b)
    · subst hqab
      have hnotin : ¬ ((a, b) ∈ L ∧ A a b ≠ 0) := fun hc => hq hc.1
      rw [if_neg hnotin]
      by_cases hA : A a b = 0
      · have : mvcStep A s (a, b) = s := by simp [mvcStep, hA]
        rw [this, if_neg fun hc => hc.2 hA]
      · have : (mvcStep A s (a, b)).1 a b = s.1 a b + 3 / 4 := by
          simp [mvcStep, hA, update2_same]
        rw [this, if_pos ⟨List.mem_cons_self _ _, hA⟩]
    · have hstep : (mvcStep A s q).1 a b = s.1 a b := by
        unfold mvcStep
        split
        · exact update2_other _ _ fun hc => hqab (by
            obtain ⟨c, d⟩ := q
            simpa [Prod.ext_iff] using hc.symm)
        · rfl
      have hmem : ((a, b) ∈ q :: L ∧ A a b ≠ 0) ↔ ((a, b) ∈ L ∧ A a b ≠ 0) := by
        constructor
        · rintro ⟨hm, hA⟩
          rcases List.mem_cons.1 hm with h | h
          · exact absurd h.symm hqab
          · exact ⟨h, hA⟩
        · rintro ⟨hm, hA⟩
          exact ⟨List.mem_cons_of_mem _ hm, hA⟩
      rw [hstep]
      by_cases hc : (a, b) ∈ L ∧ A a b ≠ 0
      · rw [if_pos hc, if_pos (hmem.2 hc)]
      · rw [if_neg hc, if_neg fun hx => hc (hmem.1 hx)]

theorem mvcStep_foldl_snd (A : ℕ → ℕ → ℚ) (L : List (ℕ × ℕ))
    (hL : ∀ p ∈ L, p.1 < p.2) (s : (ℕ → ℕ → ℚ) × (ℕ → ℚ)) (k : ℕ) :
    ((L.foldl (mvcStep A) s).2) k =
      s.2 k + 3 / 4 *
        ((L.filter fun p =>
          decide ((p.1 = k ∨ p.2 = k) ∧ A p.1 p.2 ≠ 0)).length : ℚ) := by
  induction L generalizing s with
  | nil => simp
  | cons q L ih =>
    have hq12 : q.1 < q.2 := hL q (List.mem_cons_self _ _)
    have hLtail : ∀ p ∈ L, p.1 < p.2 := fun p hp =>
      hL p (List.mem_cons_of_mem _ hp)
    simp only [List.foldl_cons]
    rw [ih hLtail]
    by_cases hA : A q.1 q.2 = 0
    · have hs : mvcStep A s q = s := by simp [mvcStep, hA]
      have hf : (decide ((q.1 = k ∨ q.2 = k) ∧ A q.1 q.2 ≠ 0)) = false := by
        simp [hA]
      rw [hs, List.filter_cons, if_neg (by simp [hf])]
    · have hfilter :
          ((q :: L).filter fun p =>
            decide ((p.1 = k ∨ p.2 = k) ∧ A p.1 p.2 ≠ 0)) =
          (if (q.1 = k ∨ q.2 = k) then [q] else []) ++
            (L.filter fun p =>
              decide ((p.1 = k ∨ p.2 = k) ∧ A p.1 p.2 ≠ 0)) := by
        rw [List.filter_cons]
        by_cases hk : q.1 = k ∨ q.2 = k
        · rw [if_pos (by simp [hk, hA]), if_pos hk, List.singleton_append]
        · rw [if_neg (by simp [hk]), if_neg hk, List.nil_append]
      have hsnd : (mvcStep A s q).2 k =
          s.2 k + (if q.1 = k ∨ q.2 = k then 3 / 4 else 0) := by
        simp only [mvcStep, if_pos hA, Function.update_apply]
        by_cases h2 : k = q.2
        · subst h2
          rw [if_pos rfl, if_neg (by omega), if_pos (Or.inr rfl)]
        · rw [if_neg h2]
          by_cases h1 : k = q.1
          · subst h1
            rw [if_pos rfl, if_pos (Or.inl rfl)]
          · rw [if_neg h1, if_neg (by
              rintro (h | h)
              · exact h1 h.symm
              · exact h2 h.symm)]
            ring
      rw [hfilter, hsnd]
      by_cases hk : q.1 = k ∨ q.2 = k
      · rw [if_pos hk, if_pos hk]
        push_cast [List.length_append, List.length_singleton]
        ring
      · rw [if_neg hk, if_neg hk]
        push_cast [List.length_append, List.length_nil]
        ring

theorem wmcStep_foldl (A : ℕ → ℕ → ℚ) (L : List (ℕ × ℕ)) (hnd : L.Nodup)
    (s : ℕ → ℕ → ℚ) (a b : ℕ) :
    (L.foldl (wmcStep A) s) a b =
      if (a, b) ∈ L ∧ A a b ≠ 0 then -A a b else s a b := by
  induction L generalizing s with
  | nil => simp
  | cons q L ih =>
    have hq : q ∉ L := (List.nodup_cons.1 hnd).1
    have hL : L.Nodup := (List.nodup_cons.1 hnd).2
    simp only [List.foldl_cons]
    rw [ih hL]
    by_cases hqab : q = (a, b)
    · subst hqab
      have hnotin : ¬ ((a, b) ∈ L ∧ A a b ≠ 0) := fun hc => hq hc.1
      rw [if_neg hnotin]
      by_cases hA : A a b = 0
      · have : wmcStep A s (a, b) = s := by simp [wmcStep, hA]
        rw [this, if_neg fun hc => hc.2 hA]
      · have : wmcStep A s (a, b) a b = -A a b := by
          simp [wmcStep, hA, update2_same]
        rw [this, if_pos ⟨List.mem_cons_self _ _, hA⟩]
    · have hstep : wmcStep A s q a b = s a b := by
        unfold wmcStep
        split
        · exact update2_other _ _ fun hc => hqab (by
            obtain ⟨c, d⟩ := q
            simpa [Prod.ext_iff] using hc.symm)
        · rfl
      have hmem : ((a, b) ∈ q :: L ∧ A a b ≠ 0) ↔ ((a, b) ∈ L ∧ A a b ≠ 0) := by
        constructor
        · rintro ⟨hm, hA⟩
          rcases List.mem_cons.1 hm with h | h
          · exact absurd h.symm hqab
          · exact ⟨h, hA⟩
        · rintro ⟨hm, hA⟩
          exact ⟨List.mem_cons_of_mem _ hm, hA⟩
      rw [hstep]
      by_cases hc : (a, b) ∈ L ∧ A a b ≠ 0
      · rw [if_pos hc, if_pos (hmem.2 hc)]
      · rw [if_neg hc, if_neg fun hx => hc (hmem.1 hx)]

/-! ### Claim C3 -/

/-- C3 counterexample: the claimed term-count bound
`length ≤ (pairs with J ≠ 0) + (qubits with h ≠ 0)` fails at the all-zero
input, where the builder returns the single all-identity placeholder term
(length 1) while the bound is 0. -/
theorem build_ising_term_bound_counterexample :
    ¬ ((build_ising_hamiltonian 1 (fun _ _ => 0) (some fun _ => 0)).length ≤
        nonzeroPairCount 1 (fun _ _ => 0) +
          nonzeroFieldCount 1 (some fun _ => 0)) := by
  decide

/-- C3 (amended): `build_ising_hamiltonian` emits exactly one ZZ term of
coefficient `J[i][j]` per pair `i < j` with `J[i][j] ≠ 0` and one Z term of
coefficient `h[i]` per `i` with `h[i] ≠ 0`, and nothing else, so whenever at
least one such term exists the term count equals (hence is at most) the pair
count plus the field count; when all entries are zero the result is exactly
the one all-identity term with coefficient 0. -/
theorem build_ising_hamiltonian_structure (n : ℕ) (J : ℕ → ℕ → ℚ)
    (lin : Option (ℕ → ℚ)) :
    (nonzeroPairCount n J + nonzeroFieldCount n lin ≠ 0 →
      (build_ising_hamiltonian n J lin).length =
        nonzeroPairCount n J + nonzeroFieldCount n lin) ∧
    (nonzeroPairCount n J + nonzeroFieldCount n lin = 0 →
      build_ising_hamiltonian n J lin = [(List.replicate n Pauli.I, 0)]) ∧
    (∀ a b : ℕ, a < b → b < n → J a b ≠ 0 →
      (zzString n a b, J a b) ∈ build_ising_hamiltonian n J lin) ∧
    (∀ (h : ℕ → ℚ) (i : ℕ), lin = some h → i < n → h i ≠ 0 →
      (zString n i, h i) ∈ build_ising_hamiltonian n J lin) ∧
    (∀ tc ∈ build_ising_hamiltonian n J lin,
      (∃ a b : ℕ, a < b ∧ b < n ∧ J a b ≠ 0 ∧ tc = (zzString n a b, J a b)) ∨
      (∃ (h : ℕ → ℚ) (i : ℕ), lin = some h ∧ i < n ∧ h i ≠ 0 ∧
        tc = (zString n i, h i)) ∨
      tc = (List.replicate n Pauli.I, 0)) := by
  have hzz : (isingZZTerms n J).length = nonzeroPairCount n J :=
    flatMap_ite_singleton_length _ _ _
  have hz : (isingZTerms n lin).length = nonzeroFieldCount n lin := by
    cases lin with
    | none => rfl
    | some h => exact flatMap_ite_singleton_length _ _ _
  have hlen : (isingZZTerms n J ++ isingZTerms n lin).length =
      nonzeroPairCount n J + nonzeroFieldCount n lin := by
    rw [List.length_append, hzz, hz]
  have hmem_build : ∀ t, t ∈ isingZZTerms n J ++ isingZTerms n lin →
      t ∈ build_ising_hamiltonian n J lin := by
    intro t ht
    unfold build_ising_hamiltonian
    rw [if_neg (List.ne_nil_of_mem ht)]
    exact ht
  refine ⟨?_, ?_, ?_, ?_, ?_⟩
  · intro hne
    unfold build_ising_hamiltonian
    rw [if_neg, hlen]
    intro hnil
    rw [hnil] at hlen
    exact hne (by simpa using hlen.symm)
  · intro hzero
    unfold build_ising_hamiltonian
    rw [if_pos]
    rw [← List.length_eq_zero, hlen, hzero]
  · intro a b hab hbn hJ
    refine hmem_build _ (List.mem_append_left _ ?_)
    exact mem_flatMap_ite_singleton (mem_pairList.2 ⟨hab, hbn⟩) hJ
  · intro h i hlin hin hh
    subst hlin
    refine hmem_build _ (List.mem_append_right _ ?_)
    exact mem_flatMap_ite_singleton (List.mem_range.2 hin) hh
  · intro tc htc
    unfold build_ising_hamiltonian at htc
    split at htc
    · right; right
      exact List.mem_singleton.1 htc
    · rcases List.mem_append.1 htc with hzz2 | hz2
      · left
        unfold isingZZTerms at hzz2
        rcases List.mem_flatMap.1 hzz2 with ⟨q, hq, hmem⟩
        obtain ⟨a, b⟩ := q
        obtain ⟨hab, hbn⟩ := mem_pairList.1 hq
        by_cases hJ : J a b ≠ 0
        · rw [if_pos hJ] at hmem
          exact ⟨a, b, hab, hbn, hJ, List.mem_singleton.1 hmem⟩
        · rw [if_neg hJ] at hmem
          exact absurd hmem (List.not_mem_nil _)
      · right; left
        unfold isingZTerms at hz2
        cases lin with
        | none => exact absurd hz2 (List.not_mem_nil _)
        | some h =>
          rcases List.mem_flatMap.1 hz2 with ⟨i, hi, hmem⟩
          by_cases hh : h i ≠ 0
          · rw [if_pos hh] at hmem
            exact ⟨h, i, rfl, List.mem_range.1 hi, hh,
              List.mem_singleton.1 hmem⟩
          · rw [if_neg hh] at hmem
            exact absurd hmem (List.not_mem_nil _)

/-- C3 witness: the amended claim evaluated at the 2-qubit single-coupling
instance `J[0][1] = 1`, no linear terms. -/
theorem build_ising_hamiltonian_structure_witness :
    (build_ising_hamiltonian 2 adjSingleEdge none).length = 1 ∧
    ([Pauli.Z, Pauli.Z], (1 : ℚ)) ∈ build_ising_hamiltonian 2 adjSingleEdge none := by
  constructor
  · have := (build_ising_hamiltonian_structure 2 adjSingleEdge none).1
      (by decide)
    rw [this]
    decide
  · have := (build_ising_hamiltonian_structure 2 adjSingleEdge none).2.2.1
      0 1 (by decide) (by decide) (by decide)
    have hz : zzString 2 0 1 = [Pauli.Z, Pauli.Z] := by decide
    have hA : adjSingleEdge 0 1 = 1 := by decide
    rwa [hz, hA] at this

/-! ### Claim C6 -/

/-- C6: `mvc_hamiltonian` adds `0.75` to `J[i][j]` for each edge `i < j`,
accumulates `0.75` into `h` at both endpoints of each edge, and finally
subtracts `1.0` from every `h[i]`; in particular, on the 2-vertex graph with
the single edge (0, 1) it returns exactly `J[0][1] = 0.75` and
`h[0] = h[1] = -0.25`. -/
theorem mvc_hamiltonian_correct (A : ℕ → ℕ → ℚ) (n : ℕ) :
    (∀ a b : ℕ,
      (mvc_hamiltonian A n).1 a b =
        if a < b ∧ b < n ∧ A a b ≠ 0 then 3 / 4 else 0) ∧
    (∀ k : ℕ, k < n →
      (mvc_hamiltonian A n).2 k =
        3 / 4 * (((pairList n).filter fun p =>
          decide ((p.1 = k ∨ p.2 = k) ∧ A p.1 p.2 ≠ 0)).length : ℚ) - 1) ∧
    ((mvc_hamiltonian adjSingleEdge 2).1 0 1 = 3 / 4 ∧
      (mvc_hamiltonian adjSingleEdge 2).2 0 = -(1 / 4) ∧
      (mvc_hamiltonian adjSingleEdge 2).2 1 = -(1 / 4)) := by
  refine ⟨?_, ?_, ?_, ?_, ?_⟩
  · intro a b
    have h1 : (mvc_hamiltonian A n).1 a b =
        (((pairList n).foldl (mvcStep A) (fun _ _ => 0, fun _ => 0)).1) a b :=
      rfl
    rw [h1, mvcStep_foldl_fst A _ (pairList_nodup n)]
    simp only [mem_pairList, and_assoc, zero_add]
  · intro k hk
    have h1 : (mvc_hamiltonian A n).2 k =
        if k < n then
          (((pairList n).foldl (mvcStep A)
            (fun _ _ => 0, fun _ => 0)).2) k - 1
        else (((pairList n).foldl (mvcStep A)
            (fun _ _ => 0, fun _ => 0)).2) k := rfl
    rw [h1, if_pos hk, mvcStep_foldl_snd A _ pairList_lt]
    ring
  · norm_num [mvc_hamiltonian, pairList, update2, adjSingleEdge, mvcStep,
      List.range_succ, Function.update_apply]
  · norm_num [mvc_hamiltonian, pairList, update2, adjSingleEdge, mvcStep,
      List.range_succ, Function.update_apply]
  · norm_num [mvc_hamiltonian, pairList, update2, adjSingleEdge, mvcStep,
      List.range_succ, Function.update_apply]

/-- C6 witness: the closed-form parts of `mvc_hamiltonian_correct` applied
to the single-edge instance. -/
theorem mvc_hamiltonian_correct_witness :
    (mvc_hamiltonian adjSingleEdge 2).1 0 1 =
      (if 0 < 1 ∧ 1 < 2 ∧ adjSingleEdge 0 1 ≠ 0 then 3 / 4 else 0) ∧
    (mvc_hamiltonian adjSingleEdge 2).2 0 =
      3 / 4 * (((pairList 2).filter fun p =>
        decide ((p.1 = 0 ∨ p.2 = 0) ∧ adjSingleEdge p.1 p.2 ≠ 0)).length : ℚ)
        - 1 :=
  ⟨(mvc_hamiltonian_correct adjSingleEdge 2).1 0 1,
    (mvc_hamiltonian_correct adjSingleEdge 2).2.1 0 (by decide)⟩

/-! ### Claim C4 -/

/-- C4 evaluation at the failing input: for the 2-vertex graph with the
single edge of weight `w = 1 > 0`, `weighted_maxcut_hamiltonian` indeed sets
`J[0][1] = -w` with zero linear terms, and the resulting single-ZZ operator
takes value `-1` on the two uncut basis states (00 and 11) and `+1` on the
two cut basis states (01 and 10): minimizing over the 4 computational basis
states favors the uncut states, not the cut states. -/
theorem weighted_maxcut_minimum_at_uncut :
    (weighted_maxcut_hamiltonian adjSingleEdge 2).1 0 1 = -1 ∧
    (∀ i, (weighted_maxcut_hamiltonian adjSingleEdge 2).2 i = 0) ∧
    build_ising_hamiltonian 2 (weighted_maxcut_hamiltonian adjSingleEdge 2).1
      (some (weighted_maxcut_hamiltonian adjSingleEdge 2).2) =
      [([Pauli.Z, Pauli.Z], -1)] ∧
    opEval [([Pauli.Z, Pauli.Z], -1)] 0 = -1 ∧
    opEval [([Pauli.Z, Pauli.Z], -1)] 3 = -1 ∧
    opEval [([Pauli.Z, Pauli.Z], -1)] 1 = 1 ∧
    opEval [([Pauli.Z, Pauli.Z], -1)] 2 = 1 := by
  refine ⟨by decide, fun i => rfl, by decide, ?_, ?_, ?_, ?_⟩ <;>
    norm_num [opEval, termSign, List.range_succ, Nat.testBit,
      Nat.shiftRight_succ, Nat.shiftRight_zero]

/-! ### Claim C5 -/

theorem maxcutBase_getD (n i j k : ℕ) (hk : k < n) :
    (maxcutBase n i j).getD k Pauli.I =
      if k = i ∨ k = j then Pauli.Z else Pauli.I := by
  unfold maxcutBase
  rw [List.getD_eq_getElem?_getD]
  by_cases hkj : k = j
  · subst hkj
    rw [List.getElem?_set_self (by simpa using hk), if_pos (Or.inr rfl)]
    rfl
  · rw [List.getElem?_set_ne (Ne.symm hkj)]
    by_cases hki : k = i
    · subst hki
      rw [List.getElem?_set_self (by simpa using hk), if_pos (Or.inl rfl)]
      rfl
    · rw [List.getElem?_set_ne (Ne.symm hki), List.getElem?_replicate,
        if_pos hk, if_neg (by tauto)]
      rfl

theorem zzString_getD (n i j k : ℕ) (hk : k < n) :
    (zzString n i j).getD k Pauli.I =
      if k = n - 1 - i ∨ k = n - 1 - j then Pauli.Z else Pauli.I := by
  unfold zzString
  rw [List.getD_eq_getElem?_getD]
  by_cases hkj : k = n - 1 - j
  · subst hkj
    rw [List.getElem?_set_self (by simpa using hk), if_pos (Or.inr rfl)]
    rfl
  · rw [List.getElem?_set_ne (Ne.symm hkj)]
    by_cases hki : k = n - 1 - i
    · subst hki
      rw [List.getElem?_set_self (by simpa using hk), if_pos (Or.inl rfl)]
      rfl
    · rw [List.getElem?_set_ne (Ne.symm hki), List.getElem?_replicate,
        if_pos hk, if_neg (by tauto)]
      rfl

theorem maxcutBase_length (n i j : ℕ) : (maxcutBase n i j).length = n := by
  simp [maxcutBase]

theorem zzString_length (n i j : ℕ) : (zzString n i j).length = n := by
  simp [zzString]

/-- C5 counterexample: for the 3-qubit single-edge instance with
`invert = False`, `maxcut_hamiltonian_from_adjacency` produces the basis
string `"ZZI"` (Z at string positions 0 and 1) for the edge (0, 1), while
`build_ising_hamiltonian` places the same term's Z symbols at positions
`n-1-i = 2` and `n-1-j = 1`, giving `"IZZ"`; the two placements differ. -/
theorem maxcut_endianness_counterexample :
    (maxcut_hamiltonian_from_adjacency adjSingleEdge 3 false).1 =
      [[Pauli.Z, Pauli.Z, Pauli.I]] ∧
    (maxcut_hamiltonian_from_adjacency adjSingleEdge 3 false).2 = [1] ∧
    zzString 3 0 1 = [Pauli.I, Pauli.Z, Pauli.Z] ∧
    ([[Pauli.Z, Pauli.Z, Pauli.I]] : List (List Pauli)) ≠
      [[Pauli.I, Pauli.Z, Pauli.Z]] := by
  refine ⟨by decide, ?_, by decide, by decide⟩
  decide

/-- C5 (amended): `maxcut_hamiltonian_from_adjacency` writes its two Z
symbols at string positions `i` and `j` (symbol index 0 = leftmost), with
coefficient the (possibly inverted, diagonal-zeroed) entry, for every
retained pair `i < j` with positive entry; this placement coincides with the
one used by `build_ising_hamiltonian` (positions `n-1-i` and `n-1-j`,
symbol index 0 = most significant qubit) exactly when `i + j = n - 1`. -/
theorem maxcut_endianness_amended (n i j : ℕ) (hij : i < j) (hjn : j < n) :
    (∀ k : ℕ, k < n →
      (maxcutBase n i j).getD k Pauli.I =
        if k = i ∨ k = j then Pauli.Z else Pauli.I) ∧
    (∀ k : ℕ, k < n →
      (zzString n i j).getD k Pauli.I =
        if k = n - 1 - i ∨ k = n - 1 - j then Pauli.Z else Pauli.I) ∧
    (maxcutBase n i j = zzString n i j ↔ i + j = n - 1) ∧
    (∀ (A : ℕ → ℕ → ℚ) (invert : Bool),
      0 < maxcutMatrix A invert i j →
      (maxcutBase n i j, maxcutMatrix A invert i j) ∈
        ((maxcut_hamiltonian_from_adjacency A n invert).1.zip
          (maxcut_hamiltonian_from_adjacency A n invert).2)) := by
  refine ⟨fun k hk => maxcutBase_getD n i j k hk,
    fun k hk => zzString_getD n i j k hk, ?_, ?_⟩
  · constructor
    · intro heq
      have hi : (maxcutBase n i j).getD i Pauli.I =
          (zzString n i j).getD i Pauli.I := by rw [heq]
      have hj : (maxcutBase n i j).getD j Pauli.I =
          (zzString n i j).getD j Pauli.I := by rw [heq]
      rw [maxcutBase_getD n i j i (lt_trans hij hjn),
        zzString_getD n i j i (lt_trans hij hjn),
        if_pos (Or.inl rfl)] at hi
      rw [maxcutBase_getD n i j j hjn, zzString_getD n i j j hjn,
        if_pos (Or.inr rfl)] at hj
      have hci : i = n - 1 - i ∨ i = n - 1 - j := by
        by_contra hc
        rw [if_neg hc] at hi
        exact absurd hi (by decide)
      have hcj : j = n - 1 - i ∨ j = n - 1 - j := by
        by_contra hc
        rw [if_neg hc] at hj
        exact absurd hj (by decide)
      omega
    · intro hsum
      have hlen : (maxcutBase n i j).length = (zzString n i j).length := by
        rw [maxcutBase_length, zzString_length]
      refine List.ext_getElem hlen ?_
      intro k hk1 _
      have hkn : k < n := by rwa [maxcutBase_length] at hk1
      have h1 : (maxcutBase n i j).getD k Pauli.I =
          (zzString n i j).getD k Pauli.I := by
        rw [maxcutBase_getD n i j k hkn, zzString_getD n i j k hkn]
        have e1 : n - 1 - i = j := by omega
        have e2 : n - 1 - j = i := by omega
        rw [e1, e2]
        exact if_congr or_comm rfl rfl
      rwa [List.getD_eq_getElem?_getD, List.getD_eq_getElem?_getD,
        List.getElem?_eq_getElem hk1, List.getElem?_eq_getElem
          (by rwa [← hlen]), Option.getD_some, Option.getD_some] at h1
  · intro A invert hpos
    have hmem : (maxcutBase n i j, maxcutMatrix A invert i j) ∈
        ((pairList n).filterMap fun p =>
          if 0 < maxcutMatrix A invert p.1 p.2 then
            some (maxcutBase n p.1 p.2, maxcutMatrix A invert p.1 p.2)
          else none) := by
      refine List.mem_filterMap.2 ⟨(i, j), mem_pairList.2 ⟨hij, hjn⟩, ?_⟩
      rw [if_pos hpos]
    have hzip : ((maxcut_hamiltonian_from_adjacency A n invert).1.zip
        (maxcut_hamiltonian_from_adjacency A n invert).2) =
        ((pairList n).filterMap fun p =>
          if 0 < maxcutMatrix A invert p.1 p.2 then
            some (maxcutBase n p.1 p.2, maxcutMatrix A invert p.1 p.2)
          else none) := by
      unfold maxcut_hamiltonian_from_adjacency
      rw [List.zip_map']
      exact List.map_id _
    rwa [hzip]

/-- C5 witness: the amended claim applied at `n = 3`, `(i, j) = (0, 1)`,
the single-edge adjacency matrix, `invert = False`. -/
theorem maxcut_endianness_amended_witness :
    ((maxcutBase 3 0 1).getD 0 Pauli.I =
      if 0 = 0 ∨ 0 = 1 then Pauli.Z else Pauli.I) ∧
    ¬ (0 + 1 = 3 - 1) ∧
    (maxcutBase 3 0 1, maxcutMatrix adjSingleEdge false 0 1) ∈
      ((maxcut_hamiltonian_from_adjacency adjSingleEdge 3 false).1.zip
        (maxcut_hamiltonian_from_adjacency adjSingleEdge 3 false).2) :=
  ⟨(maxcut_endianness_amended 3 0 1 (by decide) (by decide)).1 0 (by decide),
    by decide,
    (maxcut_endianness_amended 3 0 1 (by decide) (by decide)).2.2.2
      adjSingleEdge false (by decide)⟩

/-! ### Claim C2 -/

theorem filter_flatMap_ite {α β : Type} (l : List α) (q : α → Prop)
    [DecidablePred q] (r : α → Prop) [DecidablePred r] (f : α → List β) :
    ((l.filter fun x => decide (q x)).flatMap fun x =>
      if r x then f x else []) =
      l.flatMap fun x => if q x ∧ r x then f x else [] := by
  induction l with
  | nil => rfl
  | cons a l ih =>
    by_cases hq : q a
    · by_cases hr : r a <;>
        simp [List.filter_cons, hq, hr, ih]
    · simp [List.filter_cons, hq, ih]

theorem zzGates_eq_pairList (n : ℕ) (J : ℕ → ℕ → ℚ) (gamma : ℚ) :
    zzGates n J gamma = (pairList n).flatMap fun p =>
      if J p.1 p.2 ≠ 0 then
        [Gate.cx p.1 p.2, Gate.rz (2 * gamma * J p.1 p.2) p.2,
          Gate.cx p.1 p.2]
      else [] := by
  unfold zzGates pairList
  rw [List.flatMap_assoc]
  have h : ∀ i : ℕ,
      ((((List.range n).filter fun j => i < j).map fun j =>
        ((i, j) : ℕ × ℕ)).flatMap fun p =>
          if J p.1 p.2 ≠ 0 then
            [Gate.cx p.1 p.2, Gate.rz (2 * gamma * J p.1 p.2) p.2,
              Gate.cx p.1 p.2]
          else []) =
      (List.range n).flatMap fun j =>
        if i < j ∧ J i j ≠ 0 then
          [Gate.cx i j, Gate.rz (2 * gamma * J i j) j, Gate.cx i j]
        else [] := by
    intro i
    rw [List.flatMap_map]
    exact filter_flatMap_ite (List.range n) (fun j => i < j)
      (fun j => J i j ≠ 0) _
  simp only [h]

theorem range_getD_flatMap_zip {β : Type} (F : ℚ → ℚ → List β) :
    ∀ (gs bs : List ℚ), gs.length = bs.length →
      (List.range gs.length).flatMap
          (fun l => F (gs.getD l 0) (bs.getD l 0)) =
        (gs.zip bs).flatMap fun gb => F gb.1 gb.2 := by
  intro gs
  induction gs with
  | nil => intro bs _; rfl
  | cons g gs ih =>
    intro bs hlen
    cases bs with
    | nil => simp at hlen
    | cons b bs =>
      simp only [List.length_cons, List.range_succ_eq_map,
        List.flatMap_cons, List.flatMap_map, List.getD_cons_zero,
        List.zip_cons_cons]
      have : ((List.range gs.length).flatMap fun l =>
          F ((g :: gs).getD (l + 1) 0) ((b :: bs).getD (l + 1) 0)) =
          (gs.zip bs).flatMap fun gb => F gb.1 gb.2 := by
        simp only [List.getD_cons_succ]
        exact ih bs (by simpa using hlen)
      rw [← this]

/-- C2: with equal-length parameter lists of length `p`,
`build_qaoa_circuit` emits exactly the spec-described ansatz — a Hadamard on
every qubit, then for each layer in increasing order the cost sub-layer (the
`CNOT; RZ(2γJ); CNOT` sandwich for every pair `i < j` with `J[i][j] ≠ 0` in
row-major insertion order, then `RZ(2γh[i])` for every `i` with
`h[i] ≠ 0`) followed by the mixer sub-layer (`RX(2β)` on every qubit) — and
the ansatz has exactly `2p` free parameters (the `p` gammas and `p` betas
shared across all terms of their layer). -/
theorem build_qaoa_circuit_matches_spec (n : ℕ) (J : ℕ → ℕ → ℚ)
    (lin : Option (ℕ → ℚ)) (gammas betas : List ℚ) (p : ℕ)
    (hg : gammas.length = p) (hb : betas.length = p) :
    build_qaoa_circuit n J gammas betas lin =
      qaoaSpecCircuit n J lin (gammas.zip betas) ∧
    gammas.length + betas.length = 2 * p := by
  constructor
  · unfold build_qaoa_circuit qaoaSpecCircuit hadamardLayer
    congr 1
    rw [range_getD_flatMap_zip
      (fun g b => costLayerGates n J lin g ++ mixerGates n b) gammas betas
      (by rw [hg, hb])]
    have h : ∀ gb : ℚ × ℚ,
        costLayerGates n J lin gb.1 ++ mixerGates n gb.2 =
        ((pairList n).flatMap fun q =>
          if J q.1 q.2 ≠ 0 then
            [Gate.cx q.1 q.2, Gate.rz (2 * gb.1 * J q.1 q.2) q.2,
              Gate.cx q.1 q.2]
          else []) ++
        ((match lin with
          | none => []
          | some h => (List.range n).flatMap fun i =>
              if h i ≠ 0 then [Gate.rz (2 * gb.1 * h i) i] else []) ++
          (List.range n).map fun q => Gate.rx (2 * gb.2) q) := by
      intro gb
      unfold costLayerGates fieldGates mixerGates
      rw [zzGates_eq_pairList, List.append_assoc]
    simp only [h, List.append_assoc]
  · rw [hg, hb]
    ring

/-- C2 witness: the structural theorem applied to the 2-qubit, single-layer
scenario `J[0][1] = 1`, `h = none`, `p = 1`. -/
theorem build_qaoa_circuit_matches_spec_witness :
    build_qaoa_circuit 2 adjSingleEdge [1] [2] none =
      qaoaSpecCircuit 2 adjSingleEdge none ([1].zip [2]) ∧
    ([1] : List ℚ).length + ([2] : List ℚ).length = 2 * 1 :=
  build_qaoa_circuit_matches_spec 2 adjSingleEdge none [1] [2] 1 rfl rfl

/-! ### Claim C8 -/

theorem applyPhaseGates_append (gs1 gs2 : List Gate) (st : ℕ × ℚ) :
    applyPhaseGates (gs1 ++ gs2) st =
      (applyPhaseGates gs1 st).bind (applyPhaseGates gs2) := by
  simp [applyPhaseGates, List.foldlM_append]

theorem applyPhaseGates_flatMap_id {α : Type} (l : List α)
    (f : α → List Gate)
    (H : ∀ a ∈ l, ∀ st : ℕ × ℚ, applyPhaseGates (f a) st = some st) :
    ∀ st : ℕ × ℚ, applyPhaseGates (l.flatMap f) st = some st := by
  induction l with
  | nil => intro st; rfl
  | cons a l ih =>
    intro st
    rw [List.flatMap_cons, applyPhaseGates_append,
      H a (List.mem_cons_self a l) st]
    exact ih (fun b hb => H b (List.mem_cons_of_mem a hb)) st

theorem applyPhaseGates_zz_sandwich_zero (i j : ℕ) (hij : i ≠ j) (Jv : ℚ)
    (st : ℕ × ℚ) :
    applyPhaseGates
      [Gate.cx i j, Gate.rz (2 * 0 * Jv) j, Gate.cx i j] st = some st := by
  obtain ⟨x, a⟩ := st
  have hzero : (2 * 0 * Jv : ℚ) = 0 := by ring
  rw [hzero]
  by_cases hbit : x.testBit i
  · have hb2 : (x ^^^ 2 ^ j).testBit i = x.testBit i := by
      rw [Nat.testBit_xor, Nat.testBit_two_pow]
      simp [Ne.symm hij]
    simp [applyPhaseGates, List.foldlM, applyPhaseGate, hbit, hb2,
      Nat.xor_cancel_right, zero_div, neg_zero, add_zero, ite_self]
  · simp [applyPhaseGates, List.foldlM, applyPhaseGate, hbit, zero_div,
      neg_zero, add_zero, ite_self]

theorem applyPhaseGates_rz_zero (q : ℕ) (hv : ℚ) (st : ℕ × ℚ) :
    applyPhaseGates [Gate.rz (2 * 0 * hv) q] st = some st := by
  obtain ⟨x, a⟩ := st
  have hzero : (2 * 0 * hv : ℚ) = 0 := by ring
  rw [hzero]
  simp only [applyPhaseGates, List.foldlM, applyPhaseGate]
  by_cases hbit : x.testBit q <;> simp [hbit]

/-- C8: with `γ = 0` in every layer (so that each layer's angle
`gammas[layer]` is 0, also through the `getD` lookup used by
`build_qaoa_circuit`), every cost sub-layer acts as the identity on every
computational basis state, with zero accumulated phase — each
`CNOT; RZ(0); CNOT` sandwich and each `RZ(0)` field rotation cancels —
regardless of `J` and `h`. -/
theorem qaoa_cost_layer_gamma_zero_identity (n : ℕ) (J : ℕ → ℕ → ℚ)
    (lin : Option (ℕ → ℚ)) (gammas : List ℚ) (layer : ℕ)
    (hg : ∀ g ∈ gammas, g = 0) (st : ℕ × ℚ) :
    applyPhaseGates (costLayerGates n J lin (gammas.getD layer 0)) st =
      some st := by
  have hgamma : gammas.getD layer 0 = 0 := by
    by_cases hlt : layer < gammas.length
    · rw [List.getD_eq_getElem?_getD, List.getElem?_eq_getElem hlt,
        Option.getD_some]
      exact hg _ (List.getElem_mem hlt)
    · rw [List.getD_eq_getElem?_getD, List.getElem?_eq_none (by omega),
        Option.getD_none]
  rw [hgamma]
  unfold costLayerGates
  rw [applyPhaseGates_append]
  have hzz : applyPhaseGates (zzGates n J 0) st = some st := by
    unfold zzGates
    refine applyPhaseGates_flatMap_id _ _ (fun i _ => ?_) st
    refine applyPhaseGates_flatMap_id _ _ (fun j _ => ?_)
    intro st'
    by_cases hc : i < j ∧ J i j ≠ 0
    · rw [if_pos hc]
      exact applyPhaseGates_zz_sandwich_zero i j (Nat.ne_of_lt hc.1) _ st'
    · rw [if_neg hc]
      rfl
  have hfield : applyPhaseGates (fieldGates n lin 0) st = some st := by
    unfold fieldGates
    cases lin with
    | none => rfl
    | some h =>
      refine applyPhaseGates_flatMap_id _ _ (fun i _ => ?_) st
      intro st'
      by_cases hc : h i ≠ 0
      · rw [if_pos hc]
        exact applyPhaseGates_rz_zero i _ st'
      · rw [if_neg hc]
        rfl
  rw [hzz]
  simpa using hfield

/-- C8 witness: the identity evaluated on the 2-qubit single-coupling cost
layer at basis state 2 with an arbitrary incoming phase. -/
theorem qaoa_cost_layer_gamma_zero_identity_witness :
    applyPhaseGates
      (costLayerGates 2 adjSingleEdge (some fun _ => 1)
        (([0, 0] : List ℚ).getD 0 0)) (2, 5) = some (2, 5) :=
  qaoa_cost_layer_gamma_zero_identity 2 adjSingleEdge (some fun _ => 1)
    [0, 0] 0 (by decide) (2, 5)

/-! ### Claim C7 -/

theorem applyFactor_length (n : ℕ) (ops : List Pauli) (m : Pauli × ℕ) :
    (applyFactor n ops m).length = ops.length := by
  unfold applyFactor
  split <;> simp

theorem foldl_applyFactor_length (n : ℕ) (ms : List (Pauli × ℕ)) :
    ∀ ops : List Pauli, (ms.foldl (applyFactor n) ops).length = ops.length := by
  induction ms with
  | nil => intro ops; rfl
  | cons m ms ih =>
    intro ops
    rw [List.foldl_cons, ih, applyFactor_length]

/-- C7: `parse_hamiltonian` never surfaces a failure: it always returns a
nonempty operator whose basis strings all have length `num_qubits`; when
every `+`-separated chunk of the input strips to the empty string (total
parse failure), it returns exactly the zero operator (one all-identity term
with coefficient 0); and a Pauli factor whose qubit index is `≥ num_qubits`
is silently dropped (it leaves the term's basis string unchanged). -/
theorem parse_hamiltonian_robust (pf : List Char → Option ℚ) (s : List Char)
    (n : ℕ) :
    (parse_hamiltonian pf s n ≠ [] ∧
      ∀ t ∈ parse_hamiltonian pf s n, t.1.length = n) ∧
    ((∀ t ∈ splitOnChar '+' s, stripChars t = []) →
      parse_hamiltonian pf s n = [(List.replicate n Pauli.I, 0)]) ∧
    (∀ (g : Pauli) (idx : ℕ) (ops : List Pauli), n ≤ idx →
      applyFactor n ops (g, idx) = ops) := by
  refine ⟨⟨?_, ?_⟩, ?_, ?_⟩
  · unfold parse_hamiltonian
    split
    · simp
    · next h => exact h
  · intro t ht
    unfold parse_hamiltonian at ht
    split at ht
    · rcases List.mem_singleton.1 ht with rfl
      simp
    · rcases List.mem_map.1 ht with ⟨term, _, rfl⟩
      unfold parseTerm
      rw [foldl_applyFactor_length]
      simp
  · intro hall
    unfold parse_hamiltonian
    have hfil : (((splitOnChar '+' s).map stripChars).filter
        fun t => t ≠ []) = [] := by
      rw [List.filter_eq_nil_iff]
      intro a ha
      rcases List.mem_map.1 ha with ⟨t, ht, rfl⟩
      simp [hall t ht]
    rw [hfil]
    rfl
  · intro g idx ops hge
    unfold applyFactor
    rw [if_neg (by simpa using Nat.not_lt.2 hge)]

/-- C7 witness: total parse failure on the input `" + "` yields the zero
operator, and an index-5 factor is dropped on a 2-qubit term. -/
theorem parse_hamiltonian_robust_witness :
    parse_hamiltonian (fun _ => none) [' ', '+', ' '] 2 =
      [(List.replicate 2 Pauli.I, 0)] ∧
    applyFactor 2 [Pauli.I, Pauli.I] (Pauli.Z, 5) = [Pauli.I, Pauli.I] :=
  ⟨(parse_hamiltonian_robust (fun _ => none) [' ', '+', ' '] 2).2.1
      (by decide),
    (parse_hamiltonian_robust (fun _ => none) [] 2).2.2 Pauli.Z 5
      [Pauli.I, Pauli.I] (by decide)⟩

/-! ### Claim C9 -/

/-- A square but non-symmetric interaction matrix:
`J[0][1] = 1 ≠ 2 = J[1][0]`. -/
def Jnonsym : ℕ → ℕ → ℚ :=
  fun i j => if i = 0 ∧ j = 1 then 1 else if i = 1 ∧ j = 0 then 2 else 0

/-- C9 counterexample: a non-symmetric interaction matrix passes the request
validation untouched (no squareness or symmetry check exists anywhere on the
path), and `run_qaoa` reaches its first estimator call on it, contradicting
the claim that non-symmetric configurations are rejected before any oracle
call. -/
theorem qaoa_no_symmetry_check_counterexample :
    Jnonsym 0 1 ≠ Jnonsym 1 0 ∧
    qaoaRequestValid 2 1 100 1024 = true ∧
    qaoa_endpoint 2 Jnonsym none 1 100 1024 [0] [0] =
      some (run_qaoa_firstOracleCall 2 Jnonsym none [0] [0]) := by
  refine ⟨by decide, by decide, ?_⟩
  unfold qaoa_endpoint
  rw [if_pos]
  decide

/-- C9 (amended): configurations violating the scalar request-field bounds
(too few qubits, non-positive or oversized layer count, out-of-range
iteration cap or shot count) are rejected by pydantic validation before
`run_qaoa` — and hence before any estimator call — but the interaction
matrix itself is never checked: any matrix, square/symmetric or not, that
reaches `run_qaoa` produces an estimator (oracle) call. -/
theorem qaoa_eager_validation_amended (n : ℕ) (J : ℕ → ℕ → ℚ)
    (lin : Option (ℕ → ℚ)) (p mi sh : ℤ) (gammas betas : List ℚ) :
    (¬ (2 ≤ (n : ℤ) ∧ 1 ≤ p ∧ p ≤ 10 ∧ 1 ≤ mi ∧ mi ≤ 1000 ∧ 1 ≤ sh) →
      qaoa_endpoint n J lin p mi sh gammas betas = none) ∧
    ((2 ≤ (n : ℤ) ∧ 1 ≤ p ∧ p ≤ 10 ∧ 1 ≤ mi ∧ mi ≤ 1000 ∧ 1 ≤ sh) →
      qaoa_endpoint n J lin p mi sh gammas betas =
        some (run_qaoa_firstOracleCall n J lin gammas betas)) := by
  have hb : qaoaRequestValid n p mi sh = true ↔
      (2 ≤ (n : ℤ) ∧ 1 ≤ p ∧ p ≤ 10 ∧ 1 ≤ mi ∧ mi ≤ 1000 ∧ 1 ≤ sh) := by
    simp [qaoaRequestValid, Bool.and_eq_true, decide_eq_true_eq, and_assoc]
  constructor
  · intro hinv
    unfold qaoa_endpoint
    rw [if_neg (fun hc => hinv (hb.1 hc))]
  · intro hval
    unfold qaoa_endpoint
    rw [if_pos (hb.2 hval)]

/-- C9 witness: a 1-qubit request is rejected before any oracle call, while
a valid-field request with a non-symmetric matrix reaches the oracle. -/
theorem qaoa_eager_validation_amended_witness :
    qaoa_endpoint 1 Jnonsym none 1 100 1024 [0] [0] = none ∧
    qaoa_endpoint 2 Jnonsym none 2 100 1024 [0, 0] [0, 0] =
      some (run_qaoa_firstOracleCall 2 Jnonsym none [0, 0] [0, 0]) :=
  ⟨(qaoa_eager_validation_amended 1 Jnonsym none 1 100 1024 [0] [0]).1
      (by decide),
    (qaoa_eager_validation_amended 2 Jnonsym none 2 100 1024 [0, 0]
      [0, 0]).2 (by decide)⟩

/-! ### Claim C10 -/

/-! ### Claim C1 -/

theorem exp_mulVec_entry {D : ℕ} (N : Matrix (Fin D) (Fin D) ℂ)
    (w : Fin D → ℂ) (p : Fin D)
    (h0 : ∀ k : ℕ, ((N ^ (k + 1)).mulVec w) p = 0) :
    ((NormedSpace.exp ℂ N).mulVec w) p = w p := by
  letI : SeminormedRing (Matrix (Fin D) (Fin D) ℂ) :=
    Matrix.linftyOpSemiNormedRing
  letI : NormedRing (Matrix (Fin D) (Fin D) ℂ) := Matrix.linftyOpNormedRing
  letI : NormedAlgebra ℂ (Matrix (Fin D) (Fin D) ℂ) :=
    Matrix.linftyOpNormedAlgebra
  have hs : HasSum (fun k : ℕ => (k !⁻¹ : ℂ) • N ^ k)
      (NormedSpace.exp ℂ N) := NormedSpace.exp_series_hasSum_exp' N
  have hs2 := hs.mapL (mulVecEntryCLM D w p)
  have heq : (fun k : ℕ => mulVecEntryCLM D w p ((k !⁻¹ : ℂ) • N ^ k)) =
      fun k : ℕ => if k = 0 then w p else 0 := by
    funext k
    rw [map_smul]
    cases k with
    | zero =>
      have h1 : mulVecEntryCLM D w p (N ^ 0) = w p := by
        show ((N ^ 0).mulVec w) p = w p
        rw [pow_zero, Matrix.one_mulVec]
      rw [h1]
      simp
    | succ m =>
      have h1 : mulVecEntryCLM D w p (N ^ (m + 1)) = 0 := h0 m
      rw [h1]
      simp
  rw [heq] at hs2
  exact hs2.unique (hasSum_ite_eq 0 (w p))

theorem walkGenerator_apply_pad (V : ℕ) (A : Matrix (Fin V) (Fin V) ℝ)
    (t : ℝ) (p j : Fin (walkDim V)) (hpj : V ≤ p.1 ∨ V ≤ j.1) :
    walkGenerator V A t p j = 0 := by
  unfold walkGenerator A_padded
  simp only [Matrix.smul_apply, Matrix.map_apply, Matrix.of_apply,
    smul_eq_mul]
  rw [dif_neg (by omega)]
  simp

theorem walkGenerator_mulVec_pad (V : ℕ) (A : Matrix (Fin V) (Fin V) ℝ)
    (t : ℝ) (p : Fin (walkDim V)) (hp : V ≤ p.1) (w : Fin (walkDim V) → ℂ) :
    ((walkGenerator V A t).mulVec w) p = 0 := by
  have he : ((walkGenerator V A t).mulVec w) p =
      ∑ j, walkGenerator V A t p j * w j := rfl
  rw [he]
  exact Finset.sum_eq_zero fun j _ => by
    rw [walkGenerator_apply_pad V A t p j (Or.inl hp), zero_mul]

theorem walkGenerator_pow_mulVec_pad (V : ℕ) (A : Matrix (Fin V) (Fin V) ℝ)
    (t : ℝ) (k : ℕ) (p : Fin (walkDim V)) (hp : V ≤ p.1)
    (w : Fin (walkDim V) → ℂ) :
    ((walkGenerator V A t ^ (k + 1)).mulVec w) p = 0 := by
  rw [pow_succ', ← Matrix.mulVec_mulVec]
  exact walkGenerator_mulVec_pad V A t p hp _

/-- Zero amplitude on padding indices, for every adjacency matrix (no
symmetry needed): the padding rows of the generator are zero, so no series
term of the exponential ever moves amplitude there. -/
theorem walkState_padding_zero (V : ℕ) (A : Matrix (Fin V) (Fin V) ℝ)
    (v : ℕ) (t : ℝ) (hv : v < V) (p : Fin (walkDim V)) (hp : V ≤ p.1) :
    walkState V A v t p = 0 := by
  have h1 : walkState V A v t p = psi0 V v p :=
    exp_mulVec_entry _ _ _
      (fun k => walkGenerator_pow_mulVec_pad V A t k p hp _)
  rw [h1]
  unfold psi0
  rw [if_neg (by omega)]

theorem A_padded_symm (V : ℕ) (A : Matrix (Fin V) (Fin V) ℝ)
    (h : A.IsSymm) (i j : Fin (walkDim V)) :
    A_padded V A j i = A_padded V A i j := by
  unfold A_padded
  simp only [Matrix.of_apply]
  by_cases hc : i.1 < V ∧ j.1 < V
  · rw [dif_pos ⟨hc.2, hc.1⟩, dif_pos hc]
    exact h.apply ⟨i.1, hc.1⟩ ⟨j.1, hc.2⟩
  · rw [dif_neg fun hc2 => hc ⟨hc2.2, hc2.1⟩, dif_neg hc]

theorem walkGenerator_conjTranspose (V : ℕ) (A : Matrix (Fin V) (Fin V) ℝ)
    (t : ℝ) (h : A.IsSymm) :
    (walkGenerator V A t)ᴴ = -walkGenerator V A t := by
  ext i j
  have hA := A_padded_symm V A h i j
  simp only [Matrix.conjTranspose_apply, walkGenerator, Matrix.smul_apply,
    Matrix.map_apply, Matrix.neg_apply, smul_eq_mul, hA, Complex.star_def,
    map_mul, map_neg, Complex.conj_ofReal, Complex.conj_I]
  ring

theorem walk_exp_unitary (V : ℕ) (A : Matrix (Fin V) (Fin V) ℝ) (t : ℝ)
    (h : A.IsSymm) :
    (NormedSpace.exp ℂ (walkGenerator V A t))ᴴ *
      NormedSpace.exp ℂ (walkGenerator V A t) = 1 := by
  rw [← Matrix.exp_conjTranspose, walkGenerator_conjTranspose V A t h,
    ← Matrix.exp_add_of_commute ℂ _ _ (Commute.neg_left (Commute.refl _)),
    neg_add_cancel, NormedSpace.exp_zero]

theorem walk_dotProduct_one (V : ℕ) (A : Matrix (Fin V) (Fin V) ℝ)
    (v : ℕ) (t : ℝ) (hv : v < V) (h : A.IsSymm) :
    Matrix.dotProduct (star (walkState V A v t)) (walkState V A v t) = 1 := by
  unfold walkState
  rw [Matrix.star_mulVec, Matrix.dotProduct_mulVec, Matrix.vecMul_vecMul,
    walk_exp_unitary V A t h, Matrix.vecMul_one]
  have hvD : v < walkDim V := lt_of_lt_of_le hv (le_walkDim V)
  have he : Matrix.dotProduct (star (psi0 V v)) (psi0 V v) =
      ∑ i : Fin (walkDim V), star (psi0 V v i) * psi0 V v i := rfl
  rw [he]
  rw [Finset.sum_eq_single (⟨v, hvD⟩ : Fin (walkDim V))]
  · unfold psi0
    rw [if_pos rfl]
    simp
  · intro b _ hb
    unfold psi0
    rw [if_neg fun hc => hb (Fin.ext hc)]
    simp
  · intro hmem
    exact absurd (Finset.mem_univ _) hmem

theorem walk_total_prob_sum (V : ℕ) (A : Matrix (Fin V) (Fin V) ℝ)
    (v : ℕ) (t : ℝ) (hv : v < V) (h : A.IsSymm) :
    ∑ i : Fin (walkDim V), Complex.normSq (walkState V A v t i) = 1 := by
  have key := walk_dotProduct_one V A v t hv h
  have h2 : ∑ i : Fin (walkDim V),
      (Complex.normSq (walkState V A v t i) : ℂ) = 1 := by
    rw [← key]
    have he : Matrix.dotProduct (star (walkState V A v t))
        (walkState V A v t) =
        ∑ i : Fin (walkDim V),
          star (walkState V A v t i) * walkState V A v t i := rfl
    rw [he]
    refine Finset.sum_congr rfl fun i _ => ?_
    rw [Complex.star_def, mul_comm, Complex.mul_conj]
  have h3 : ((∑ i : Fin (walkDim V),
      Complex.normSq (walkState V A v t i) : ℝ) : ℂ) = ((1 : ℝ) : ℂ) := by
    push_cast
    rw [h2]
  exact_mod_cast h3

/-- C1: for every adjacency matrix, valid initial vertex `v < V` and real
time `t` (hence for every snapshot time `t = step * dt` of the evolution),
the walk amplitude `psi(t) = expm(-i * A_padded * t) @ psi0` is exactly zero
on every padding index `≥ V`; and for a (symmetric) adjacency matrix the
returned per-vertex probabilities `|psi(t)[:V]|^2` sum to exactly 1. -/
theorem ctqw_padding_invariant (V : ℕ) (A : Matrix (Fin V) (Fin V) ℝ)
    (v : ℕ) (t : ℝ) (hv : v < V) :
    (∀ p : Fin (walkDim V), V ≤ p.1 → walkState V A v t p = 0) ∧
    (A.IsSymm → ∑ i : Fin V, vertexProbs V A v t i = 1) := by
  constructor
  · exact fun p hp => walkState_padding_zero V A v t hv p hp
  · intro hsym
    have hD := walk_total_prob_sum V A v t hv hsym
    have hsplit := Finset.sum_filter_add_sum_filter_not
      (Finset.univ : Finset (Fin (walkDim V))) (fun i => i.1 < V)
      (fun i => Complex.normSq (walkState V A v t i))
    have hzero : ∑ i ∈ Finset.univ.filter
        (fun i : Fin (walkDim V) => ¬ i.1 < V),
        Complex.normSq (walkState V A v t i) = 0 := by
      refine Finset.sum_eq_zero fun i hi => ?_
      have hge : V ≤ i.1 := by
        have := (Finset.mem_filter.1 hi).2
        omega
      rw [walkState_padding_zero V A v t hv i hge]
      simp
    have hfil : ∑ i ∈ Finset.univ.filter
        (fun i : Fin (walkDim V) => i.1 < V),
        Complex.normSq (walkState V A v t i) = 1 := by
      rw [hzero, add_zero] at hsplit
      rw [hsplit]
      exact hD
    rw [← hfil]
    refine (Finset.sum_bij'
      (fun (b : Fin V) (_ : b ∈ Finset.univ) =>
        (⟨b.1, lt_of_lt_of_le b.2 (le_walkDim V)⟩ : Fin (walkDim V)))
      (fun (a : Fin (walkDim V))
        (ha : a ∈ Finset.univ.filter fun i : Fin (walkDim V) => i.1 < V) =>
        (⟨a.1, (Finset.mem_filter.1 ha).2⟩ : Fin V))
      ?_ ?_ ?_ ?_ ?_)
    · intro b _
      exact Finset.mem_filter.2 ⟨Finset.mem_univ _, b.2⟩
    · intro a _
      exact Finset.mem_univ _
    · intro b _
      rfl
    · intro a _
      rfl
    · intro b _
      unfold vertexProbs
      rfl

/-- C1 witness: the trivial 1-vertex graph (zero adjacency matrix), initial
vertex 0, time 37: the padding amplitude at index 1 vanishes and the single
vertex carries probability 1. -/
theorem ctqw_padding_invariant_witness :
    walkState 1 (0 : Matrix (Fin 1) (Fin 1) ℝ) 0 37
      ⟨1, by decide⟩ = 0 ∧
    ∑ i : Fin 1, vertexProbs 1 (0 : Matrix (Fin 1) (Fin 1) ℝ) 0 37 i = 1 :=
  ⟨(ctqw_padding_invariant 1 0 0 37 (by decide)).1 ⟨1, by decide⟩
      (by decide),
    (ctqw_padding_invariant 1 0 0 37 (by decide)).2 Matrix.transpose_zero⟩

/-- A padding initial vertex is a fixed point of the walk evolution: both
the row and the column of the generator at any padding index are zero, so
the generator annihilates `psi0` and the exponential leaves it unchanged. -/
theorem walkState_padding_initial (W : ℕ) (A : Matrix (Fin W) (Fin W) ℝ)
    (v : ℕ) (t : ℝ) (hv : W ≤ v) :
    walkState W A v t = psi0 W v := by
  have hN0 : (walkGenerator W A t).mulVec (psi0 W v) = 0 := by
    funext q
    have he : ((walkGenerator W A t).mulVec (psi0 W v)) q =
        ∑ j, walkGenerator W A t q j * psi0 W v j := rfl
    rw [he]
    refine Finset.sum_eq_zero fun j _ => ?_
    by_cases hj : j.1 = v
    · rw [walkGenerator_apply_pad W A t q j (Or.inr (by omega)), zero_mul]
    · have : psi0 W v j = 0 := by
        unfold psi0
        rw [if_neg hj]
      rw [this, mul_zero]
  funext p
  refine exp_mulVec_entry _ _ _ fun k => ?_
  rw [pow_succ, ← Matrix.mulVec_mulVec, hN0, Matrix.mulVec_zero]
  rfl

/-- C10: when every measured outcome index is a padding index
(`≥ num_vertices`), the filtered counts are empty and `run_quantum_walk`
still reports `most_likely_state = "0" * num_qubits` and hence
`most_likely_vertex = 0`, although vertex 0 was never observed; such inputs
exist because `initial_vertex` is only validated to be `≥ 0`, and a padding
initial vertex `v ≥ num_vertices` is a fixed point of the evolution, so all
probability mass stays on padding index `v` at every time. -/
theorem walk_padding_fallback (nq V : ℕ) (counts : List (ℕ × ℕ))
    (hpad : ∀ sc ∈ counts, V ≤ sc.1) :
    (filteredCounts V counts = [] ∧
      walkMostLikely nq V counts = (List.replicate nq false, 0)) ∧
    (∀ (W : ℕ) (A : Matrix (Fin W) (Fin W) ℝ) (v : ℕ) (t : ℝ), W ≤ v →
      walkState W A v t = psi0 W v) := by
  have hfil : filteredCounts V counts = [] := by
    unfold filteredCounts
    induction counts with
    | nil => rfl
    | cons c cs ih =>
      rw [List.foldl_cons,
        if_neg (Nat.not_lt.2 (hpad c (List.mem_cons_self c cs)))]
      exact ih fun sc hsc => hpad sc (List.mem_cons_of_mem c hsc)
  refine ⟨⟨hfil, ?_⟩, fun W A v t hv => walkState_padding_initial W A v t hv⟩
  unfold walkMostLikely
  rw [hfil]
  rfl

/-- C10 witness: all 1024 shots on padding index 3 of a 3-vertex graph give
the all-zeros report, and starting the walk at padding vertex 3 of a
3-vertex graph leaves the state at index 3 forever. -/
theorem walk_padding_fallback_witness :
    (filteredCounts 3 [(3, 1024)] = [] ∧
      walkMostLikely 2 3 [(3, 1024)] = (List.replicate 2 false, 0)) ∧
    walkState 3 (0 : Matrix (Fin 3) (Fin 3) ℝ) 3 5 = psi0 3 3 :=
  ⟨(walk_padding_fallback 2 3 [(3, 1024)] (by decide)).1,
    (walk_padding_fallback 2 3 [(3, 1024)] (by decide)).2
      3 (0 : Matrix (Fin 3) (Fin 3) ℝ) 3 5 (by decide)⟩

end QCDebug
